import Mathlib

/-!
Verification of `scripts/index-vault.py`, a keyword-based semantic index
over a vault of markdown notes.  The Python source is shallowly embedded:
pure helpers become Lean functions, file-system state and the persisted
stores are passed explicitly, and the external pieces (SHA-256, the JSON
codec of the standard library, the system clock) are abstracted as
parameters or as an explicit value type, as noted at each definition.
Python strings are modelled by Lean `String`; `str.lower` is modelled
per-character (`Char.toLower`), and `str.split()` with no argument is
modelled by splitting on runs of whitespace, which agrees with Python on
ASCII text.
-/

/-- Model of Python `str.lower()`: lowercase each character.  Agrees with
CPython on ASCII; the vault is ASCII-oriented markdown. -/
def lower (s : String) : String := ⟨s.data.map Char.toLower⟩

/-- Worker for whitespace splitting: `cur` holds the characters of the
current token in reverse.  Flushes `cur` at each whitespace run boundary
and at the end, never emitting an empty token — the behaviour of Python
`str.split()` with no separator argument. -/
def splitWsGo (cur : List Char) : List Char → List (List Char)
  | [] => if cur = [] then [] else [cur.reverse]
  | c :: cs =>
    if c.isWhitespace then
      if cur = [] then splitWsGo [] cs else cur.reverse :: splitWsGo [] cs
    else splitWsGo (c :: cur) cs

/-- Model of Python `str.split()` (no argument): whitespace-delimited
tokens, empty tokens dropped. -/
def splitWs (s : String) : List String := (splitWsGo [] s.data).map String.mk

/-- One entry of the semantic index, as built by `cmd_update`
(`index-vault.py` lines 130-136). -/
structure IndexEntry where
  source_path : String
  content_hash : String
  summary : String
  keywords : List String
  related : List String
deriving DecidableEq, Repr

/-- The in-memory index: `{'version': ..., 'entries': {...}}`.  The Python
dict of entries is modelled as an association list in insertion order,
with distinct keys in any state actually reachable. -/
structure Index where
  version : Int
  entries : List (String × IndexEntry)
deriving DecidableEq, Repr

/-- The fresh empty index returned by the tolerant load
(`index-vault.py` line 63). -/
def emptyIndex : Index := { version := 1, entries := [] }

/-- Model of `query.lower().split()` made into a set
(`index-vault.py` line 144 and line 178). -/
def queryTerms (q : String) : Finset String := (splitWs (lower q)).toFinset

/-- Model of `set(k.lower() for k in entry.get('keywords', []))`
(`index-vault.py` line 148 and line 182). -/
def entryTerms (e : IndexEntry) : Finset String := (e.keywords.map lower).toFinset

/-- Model of `set(entry.get('summary', '').lower().split())`
(`index-vault.py` line 149 and line 183). -/
def summaryTerms (e : IndexEntry) : Finset String := (splitWs (lower e.summary)).toFinset

/-- Keyword overlap count `len(query_terms & entry_terms)`
(`index-vault.py` line 151 and line 184). -/
def kwOverlap (q : String) (e : IndexEntry) : Nat :=
  (queryTerms q ∩ entryTerms e).card

/-- Summary overlap `len(query_terms & summary_terms) * 0.5`
(`index-vault.py` line 152 and line 185).  The Python float arithmetic is
exact here (an integer times 0.5), so it is modelled in `ℚ`. -/
def summaryOverlap (q : String) (e : IndexEntry) : ℚ :=
  ((queryTerms q ∩ summaryTerms e).card : ℚ) * 0.5

/-- Relevance score `score = kw_overlap + summary_overlap`
(`index-vault.py` line 153 and line 186), shared verbatim by `cmd_search`
and `cmd_search_json`. -/
def score (q : String) (e : IndexEntry) : ℚ :=
  (kwOverlap q e : ℚ) + summaryOverlap q e

/-- The entry of the worked spec scenario: `{path: "memory/a.md",
keywords: ["rust","memory"], summary: "notes on rust borrow checker"}`. -/
def exampleEntry : IndexEntry :=
  { source_path := "memory/a.md", content_hash := "",
    summary := "notes on rust borrow checker",
    keywords := ["rust", "memory"], related := [] }

lemma score_example : score "rust ownership" exampleEntry = 3 / 2 := by
  have h1 : kwOverlap "rust ownership" exampleEntry = 1 := by decide
  have h2 : (queryTerms "rust ownership" ∩ summaryTerms exampleEntry).card = 1 := by
    decide
  rw [score, summaryOverlap, h1, h2]
  norm_num

/-- The scored, filtered, ranked result list shared by `cmd_search`
(`index-vault.py` lines 143-157) and `cmd_search_json` (lines 177-190),
which contain the same loop verbatim: score every entry, keep scores
`> 0`, then `results.sort(key=lambda x: -x[0])` — a stable sort by
descending score, modelled by `mergeSort` with the relation
`b.score ≤ a.score`. -/
def searchResults (index : Index) (q : String) : List (ℚ × String × IndexEntry) :=
  ((index.entries.map fun pe => (score q pe.2, pe.1, pe.2)).filter
      fun r => decide (0 < r.1)).mergeSort
    fun a b => decide (b.1 ≤ a.1)

/-- Embedding of `cmd_search` (`index-vault.py` lines 141-172): returns the
full ranked result list (the human-readable printing shows the first 10 of
it). -/
def cmd_search (index : Index) (q : String) : List (ℚ × String × IndexEntry) :=
  searchResults index q

/-- One candidate record of the structured output of `cmd_search_json`
(`index-vault.py` lines 195-202). -/
structure Candidate where
  path : String
  keyword_score : ℚ
  summary : String
  keywords : List String
  matched_keywords : List String
  related : List String
deriving DecidableEq, Repr

/-- The structured output of `cmd_search_json`
(`index-vault.py` lines 204-209). -/
structure SearchOutput where
  query : String
  query_terms : List String
  candidate_count : Nat
  candidates : List Candidate
deriving DecidableEq, Repr

/-- Embedding of `cmd_search_json` (`index-vault.py` lines 175-211):
the same scoring pipeline, truncated to `top_n` and packaged as records;
`matched_keywords` is `sorted(query_terms & set(k.lower() for k in
entry.get('keywords', [])))`. -/
def cmd_search_json (index : Index) (q : String) (top_n : Nat := 10) : SearchOutput :=
  let results := searchResults index q
  let candidates := (results.take top_n).map fun r =>
    { path := r.2.1
      keyword_score := r.1
      summary := r.2.2.summary
      keywords := r.2.2.keywords
      matched_keywords := (queryTerms q ∩ entryTerms r.2.2).sort (· ≤ ·)
      related := r.2.2.related }
  { query := q
    query_terms := (queryTerms q).sort (· ≤ ·)
    candidate_count := candidates.length
    candidates := candidates }

/-- JSON values, the codomain of the standard library `json.load` used by
`load_index`.  Numbers are restricted to integers, which covers every
value this program ever persists (`version: 1`). -/
inductive Json where
  | null : Json
  | bool (b : Bool) : Json
  | num (n : Int) : Json
  | str (s : String) : Json
  | arr (xs : List Json) : Json
  | obj (kvs : List (String × Json)) : Json

/-- State of the index store location on disk, as seen through
`open` + `json.load`: the file may be absent (`FileNotFoundError`), its
content may fail to parse (`JSONDecodeError`), or it parses to some JSON
value.  The JSON parser itself is external library code, so only its
outcome is modelled. -/
inductive StoreState where
  | absent : StoreState
  | unparsable : StoreState
  | parsed (j : Json) : StoreState

/-- The canonical empty index `{'version': 1, 'entries': {}}` as a JSON
value (`index-vault.py` line 63). -/
def emptyIndexJson : Json :=
  Json.obj [("version", Json.num 1), ("entries", Json.obj [])]

/-- Embedding of `load_index` (`index-vault.py` lines 57-63): the
`try/except (FileNotFoundError, json.JSONDecodeError)` returns the
canonical empty structure when the file is absent or its content does not
parse; any successfully parsed JSON value is returned as is. -/
def load_index : StoreState → Json
  | StoreState.absent => emptyIndexJson
  | StoreState.unparsable => emptyIndexJson
  | StoreState.parsed j => j

/-- Serialization of one `IndexEntry` to JSON, the shape written by
`cmd_update` (`index-vault.py` lines 130-136). -/
def entryToJson (e : IndexEntry) : Json :=
  Json.obj
    [("source_path", Json.str e.source_path),
     ("content_hash", Json.str e.content_hash),
     ("summary", Json.str e.summary),
     ("keywords", Json.arr (e.keywords.map Json.str)),
     ("related", Json.arr (e.related.map Json.str))]

/-- Serialization of the whole index to JSON, the value that
`save_index`'s `json.dump(index, f, indent=2)` writes
(`index-vault.py` lines 66-70). -/
def indexToJson (i : Index) : Json :=
  Json.obj
    [("version", Json.num i.version),
     ("entries", Json.obj (i.entries.map fun pe => (pe.1, entryToJson pe.2)))]

/-- Embedding of `save_index` (`index-vault.py` lines 66-70): after a save
the store location holds exactly the serialized index (`json.dump`
followed by `json.load` is the identity on JSON values, a property of the
external standard library codec). -/
def save_index (i : Index) : StoreState :=
  StoreState.parsed (indexToJson i)

/-- Decoder for a list of JSON strings, the inverse of mapping
`Json.str`. -/
def decodeStrList : List Json → Option (List String)
  | [] => some []
  | Json.str s :: rest => (decodeStrList rest).map fun l => s :: l
  | _ => none

/-- Decoder for one serialized `IndexEntry`: recovers the record written
by `entryToJson`. -/
def decodeEntry : Json → Option IndexEntry
  | Json.obj
      [("source_path", Json.str sp),
       ("content_hash", Json.str h),
       ("summary", Json.str su),
       ("keywords", Json.arr ks),
       ("related", Json.arr rs)] =>
    match decodeStrList ks, decodeStrList rs with
    | some kl, some rl =>
      some { source_path := sp, content_hash := h, summary := su,
             keywords := kl, related := rl }
    | _, _ => none
  | _ => none

/-- Decoder for the serialized entries mapping. -/
def decodeEntries : List (String × Json) → Option (List (String × IndexEntry))
  | [] => some []
  | (k, j) :: rest =>
    match decodeEntry j, decodeEntries rest with
    | some e, some l => some ((k, e) :: l)
    | _, _ => none

/-- Decoder for the whole serialized index: recovers the structure written
by `indexToJson`. -/
def decodeIndex : Json → Option Index
  | Json.obj [("version", Json.num v), ("entries", Json.obj kvs)] =>
    (decodeEntries kvs).map fun l => { version := v, entries := l }
  | _ => none

/-- Model of a file system, used for the vault documents: an association
list from path to file content; a path names an existing file exactly when
it has a binding.  `lookup` takes the first binding, and real file systems
have no duplicate paths. -/
def FileSystem : Type := List (String × String)

/-- Model of Python dict assignment `d[k] = v` on an association list in
insertion order: an existing key is overwritten in place, a new key is
appended at the end. -/
def dictInsert (k : String) (v : IndexEntry) :
    List (String × IndexEntry) → List (String × IndexEntry)
  | [] => [(k, v)]
  | (k₀, v₀) :: rest =>
    if k₀ = k then (k₀, v) :: rest else (k₀, v₀) :: dictInsert k v rest

/-- The typed view of the index store used by the command embeddings:
`none` stands for an absent or unparsable store (which `load_index` turns
into the empty index), `some i` for a store holding a well-formed
serialized index. -/
def loadOrEmpty (store : Option Index) : Index := store.getD emptyIndex

/-- Embedding of `cmd_update` (`index-vault.py` lines 122-138).  The
content hasher (`hashlib.sha256`, external) is passed as the function
`hash`.  When `os.path.isfile(fpath)` fails the command prints the
not-found error and exits via `sys.exit(1)` before touching the store;
otherwise it loads the index, rebuilds the entry in full from the
arguments and the freshly hashed file content, stores it under `fpath`,
and saves.  The result is `Except.error` on the not-found exit, or
`Except.ok` with the index that was saved. -/
def cmd_update (hash : String → String) (fs : FileSystem) (store : Option Index)
    (fpath summary : String) (keywords related : List String) :
    Except String Index :=
  match List.lookup fpath fs with
  | none => Except.error ("Error: file not found: " ++ fpath)
  | some text =>
    let index := loadOrEmpty store
    Except.ok
      { index with
        entries :=
          dictInsert fpath
            { source_path := fpath, content_hash := hash text,
              summary := summary, keywords := keywords, related := related }
            index.entries }

/-- The persisted store after running `cmd_update`: unchanged on the
not-found exit (no `save_index` call is reached), replaced by the saved
index otherwise. -/
def updateStoreAfter (hash : String → String) (fs : FileSystem)
    (store : Option Index) (fpath summary : String)
    (keywords related : List String) : Option Index :=
  match cmd_update hash fs store fpath summary keywords related with
  | Except.error _ => store
  | Except.ok i => some i

/-- Embedding of `vault_files` (`index-vault.py` lines 73-75):
`sorted(glob.glob('memory/**/*.md'))` — the paths of all vault documents
in ascending lexicographic order.  The glob itself is modelled by taking
the whole `FileSystem` to be the collection of vault markdown files. -/
def vault_files (fs : FileSystem) : List String :=
  (fs.map Prod.fst).mergeSort fun a b => decide (a ≤ b)

/-- Embedding of `cmd_scan` (`index-vault.py` lines 82-108): walks the
sorted vault files, keeps those with no index entry or whose stored
`content_hash` differs from the hash of the live content, and returns the
needs-indexing list together with the (untouched — `cmd_scan` never calls
`save_index`) index store. -/
def cmd_scan (hash : String → String) (fs : FileSystem) (index : Index) :
    List String × Index :=
  ((vault_files fs).filter fun fpath =>
      let text := (List.lookup fpath fs).getD ""
      match List.lookup fpath index.entries with
      | some entry => !(entry.content_hash == hash text)
      | none => true,
    index)

/-- One record of the miss log, as appended by `cmd_miss`
(`index-vault.py` lines 222-227). -/
structure MissRecord where
  timestamp : String
  query : String
  expected_path : String
  reason : String
deriving DecidableEq, Repr

/-- Embedding of `cmd_miss` (`index-vault.py` lines 214-231).  The prior
log state is `none` for an absent or unparsable log file (the
`try/except` falls back to `[]`) and `some l` for a parsed record list;
`now` is the value of `datetime.now(timezone.utc).isoformat()`, an
external clock call modelled as a parameter.  The command appends one
record and persists the whole resulting list. -/
def cmd_miss (prior : Option (List MissRecord)) (now query expected reason : String) :
    List MissRecord :=
  prior.getD [] ++
    [{ timestamp := now, query := query, expected_path := expected, reason := reason }]

/-- The statistics computed by `cmd_stats` (`index-vault.py` lines
252-281). -/
structure Stats where
  total_files : Nat
  indexed : Nat
  all_keywords : Finset String
  stale : List String
  logged_misses : Option Nat

/-- Embedding of `cmd_stats` (`index-vault.py` lines 252-281): counts the
vault files and entries, folds the lowercased keywords of every entry into
one set, lists the entry paths that no longer name an existing file, and
reads the miss-log length when the log parses.  The index store is
returned untouched (`cmd_stats` never calls `save_index`). -/
def cmd_stats (fs : FileSystem) (store : Option Index)
    (missLog : Option (List MissRecord)) : Stats × Option Index :=
  let index := loadOrEmpty store
  ({ total_files := (vault_files fs).length
     indexed := index.entries.length
     all_keywords :=
       index.entries.foldl
         (fun acc pe => acc ∪ (pe.2.keywords.map lower).toFinset) ∅
     stale := (index.entries.map Prod.fst).filter
       fun p => (List.lookup p fs).isNone
     logged_misses := missLog.map List.length },
   store)

/-!  Helper lemmas about the serialization layer. -/

lemma decodeStrList_map (l : List String) :
    decodeStrList (l.map Json.str) = some l := by
  induction l with
  | nil => rfl
  | cons x xs ih => simp [decodeStrList, ih]

lemma decodeEntry_entryToJson (e : IndexEntry) :
    decodeEntry (entryToJson e) = some e := by
  cases e
  simp [entryToJson, decodeEntry, decodeStrList_map]

lemma decodeEntries_map (l : List (String × IndexEntry)) :
    decodeEntries (l.map fun pe => (pe.1, entryToJson pe.2)) = some l := by
  induction l with
  | nil => rfl
  | cons pe rest ih => simp [decodeEntries, decodeEntry_entryToJson, ih]

/-- C2 counterexample: a present store file whose content is the JSON text
of an empty array — malformed as an index store, yet well-formed JSON, so
`json.load` succeeds and `load_index` returns the parsed array unchanged
instead of the canonical empty index.  (In CPython terms: a store file
containing `[]`.) -/
theorem load_index_parsed_garbage_not_empty :
    load_index (StoreState.parsed (Json.arr [])) = Json.arr [] ∧
      Json.arr [] ≠ emptyIndexJson :=
  ⟨rfl, fun h => Json.noConfusion h⟩

/-- C2 (amended): when the index store file is absent or its content fails
to parse as JSON, `load_index` does not raise and returns the canonical
empty index `{'version': 1, 'entries': {}}`; content that parses as JSON
is returned as parsed, even when it is not a well-formed index object. -/
theorem load_index_tolerant (s : StoreState)
    (h : s = StoreState.absent ∨ s = StoreState.unparsable) :
    load_index s = Json.obj [("version", Json.num 1), ("entries", Json.obj [])] := by
  rcases h with h | h <;> subst h <;> rfl

/-- C2 witness: the amended tolerant-load theorem at the absent store. -/
theorem load_index_tolerant_witness :
    load_index StoreState.absent =
      Json.obj [("version", Json.num 1), ("entries", Json.obj [])] :=
  load_index_tolerant StoreState.absent (Or.inl rfl)

/-- C3: saving the index store and loading it back yields exactly the
serialized form of the saved index, and that serialized form determines
the saved structure — `decodeIndex` recovers every field of every entry.
So a save followed by a load loses nothing, for any entry set. -/
theorem save_load_roundtrip (i : Index) :
    load_index (save_index i) = indexToJson i ∧
      decodeIndex (indexToJson i) = some i := by
  refine ⟨rfl, ?_⟩
  cases i with
  | mk v entries => simp [indexToJson, decodeIndex, decodeEntries_map]

/-!  Helper lemmas about dict assignment. -/

lemma lookup_dictInsert_self (k : String) (v : IndexEntry)
    (l : List (String × IndexEntry)) :
    List.lookup k (dictInsert k v l) = some v := by
  induction l with
  | nil => simp [dictInsert, List.lookup]
  | cons kv rest ih =>
    obtain ⟨k₀, v₀⟩ := kv
    by_cases h : k₀ = k
    · subst h
      simp [dictInsert, List.lookup]
    · have hbeq : (k == k₀) = false := beq_eq_false_iff_ne.mpr (Ne.symm h)
      simp [dictInsert, h, List.lookup, hbeq, ih]

lemma dictInsert_idem (k : String) (v : IndexEntry)
    (l : List (String × IndexEntry)) :
    dictInsert k v (dictInsert k v l) = dictInsert k v l := by
  induction l with
  | nil => simp [dictInsert]
  | cons kv rest ih =>
    by_cases h : kv.1 = k
    · simp [dictInsert, h]
    · simp [dictInsert, h, ih]

/-- C4: when the given document path names no existing file, `cmd_update`
reports the not-found error and exits before loading or saving the index,
so the persisted store is completely unchanged. -/
theorem update_not_found (hash : String → String) (fs : FileSystem)
    (store : Option Index) (fpath summary : String)
    (keywords related : List String) (h : List.lookup fpath fs = none) :
    cmd_update hash fs store fpath summary keywords related =
        Except.error ("Error: file not found: " ++ fpath) ∧
      updateStoreAfter hash fs store fpath summary keywords related = store := by
  constructor
  · simp [cmd_update, h]
  · simp [updateStoreAfter, cmd_update, h]

/-- C4 witness: updating a missing path over an empty file system leaves a
concrete one-entry store untouched and reports the error. -/
theorem update_not_found_witness :
    cmd_update (fun _ => "") [] (some emptyIndex) "memory/a.md" "s" [] [] =
        Except.error "Error: file not found: memory/a.md" ∧
      updateStoreAfter (fun _ => "") [] (some emptyIndex) "memory/a.md" "s" [] [] =
        some emptyIndex :=
  update_not_found (fun _ => "") [] (some emptyIndex) "memory/a.md" "s" [] [] rfl

/-- C6: for an existing document, `cmd_update` stores under the given path
an entry rebuilt in full — source path, hash freshly recomputed from the
live content, summary, keywords and related all taken from this call — and
a second call with identical arguments (and unchanged content) produces
the identical index, hence the identical stored entry. -/
theorem update_full_overwrite_idempotent (hash : String → String)
    (fs : FileSystem) (store : Option Index) (fpath summary text : String)
    (keywords related : List String) (h : List.lookup fpath fs = some text) :
    ∃ i₁,
      cmd_update hash fs store fpath summary keywords related = Except.ok i₁ ∧
      List.lookup fpath i₁.entries =
        some { source_path := fpath, content_hash := hash text,
               summary := summary, keywords := keywords, related := related } ∧
      cmd_update hash fs (some i₁) fpath summary keywords related =
        Except.ok i₁ := by
  refine
    ⟨{ loadOrEmpty store with
        entries :=
          dictInsert fpath
            { source_path := fpath, content_hash := hash text,
              summary := summary, keywords := keywords, related := related }
            (loadOrEmpty store).entries }, ?_, ?_, ?_⟩
  · simp [cmd_update, h]
  · simp [lookup_dictInsert_self]
  · simp [cmd_update, h, loadOrEmpty, dictInsert_idem]

/-- C6 witness: a concrete double update of `memory/a.md` with the
identity hash, evaluated. -/
theorem update_full_overwrite_idempotent_witness :
    ∃ i₁,
      cmd_update (fun t => t) [("memory/a.md", "hello")] none "memory/a.md" "sum"
          ["k1"] [] = Except.ok i₁ ∧
      List.lookup "memory/a.md" i₁.entries =
        some { source_path := "memory/a.md", content_hash := "hello",
               summary := "sum", keywords := ["k1"], related := [] } ∧
      cmd_update (fun t => t) [("memory/a.md", "hello")] (some i₁) "memory/a.md"
          "sum" ["k1"] [] = Except.ok i₁ :=
  update_full_overwrite_idempotent (fun t => t) [("memory/a.md", "hello")] none
    "memory/a.md" "sum" "hello" ["k1"] [] rfl

/-- C7: logging a miss yields exactly the prior record sequence with one
new record appended — the prior records survive unchanged as the prefix,
the length grows by one, the last record carries the supplied query,
expected path, reason and the clock value — and with no prior log the
result is exactly that one record. -/
theorem miss_append_only (prior : Option (List MissRecord))
    (now query expected reason : String) :
    cmd_miss prior now query expected reason =
        prior.getD [] ++ [{ timestamp := now, query := query,
                            expected_path := expected, reason := reason }] ∧
      (cmd_miss prior now query expected reason).take (prior.getD []).length =
        prior.getD [] ∧
      (cmd_miss prior now query expected reason).length =
        (prior.getD []).length + 1 ∧
      (cmd_miss prior now query expected reason).getLast? =
        some { timestamp := now, query := query,
               expected_path := expected, reason := reason } ∧
      (prior = none →
        cmd_miss prior now query expected reason =
          [{ timestamp := now, query := query,
             expected_path := expected, reason := reason }]) := by
  refine ⟨rfl, ?_, by simp [cmd_miss], ?_, ?_⟩
  · simp [cmd_miss, List.take_left]
  · simp [cmd_miss]
  · rintro rfl
    rfl

/-- C7 witness: logging a miss with no prior log file produces exactly one
record holding the supplied fields. -/
theorem miss_append_only_witness :
    cmd_miss none "2026-10-12T00:00:00+00:00" "q" "memory/a.md" "r" =
      [{ timestamp := "2026-10-12T00:00:00+00:00", query := "q",
         expected_path := "memory/a.md", reason := "r" }] :=
  (miss_append_only none "2026-10-12T00:00:00+00:00" "q" "memory/a.md" "r").2.2.2.2
    rfl

/-!  Helper lemmas about the search pipeline. -/

lemma mem_searchResults (index : Index) (q : String) (r : ℚ × String × IndexEntry) :
    r ∈ searchResults index q ↔
      (∃ pe ∈ index.entries, (score q pe.2, pe.1, pe.2) = r) ∧ 0 < r.1 := by
  simp [searchResults]

lemma sorted_searchResults (index : Index) (q : String) :
    (searchResults index q).Pairwise fun a b => b.1 ≤ a.1 := by
  have h :=
    @List.sorted_mergeSort (ℚ × String × IndexEntry)
      (fun a b => decide (b.1 ≤ a.1))
      (fun a b c hab hbc => by
        simp only [decide_eq_true_eq] at *
        exact le_trans hbc hab)
      (fun a b => by
        rcases le_total a.1 b.1 with hle | hle <;> simp [hle])
      ((index.entries.map fun pe => (score q pe.2, pe.1, pe.2)).filter
        fun r => decide (0 < r.1))
  exact h.imp fun hab => of_decide_eq_true hab

lemma score_formula (q : String) (e : IndexEntry) :
    score q e =
      ((queryTerms q ∩ entryTerms e).card : ℚ) +
        0.5 * ((queryTerms q ∩ summaryTerms e).card : ℚ) := by
  rw [score, kwOverlap, summaryOverlap]
  ring

/-- C1: in both output modes the relevance score of every result equals
the number of lowercased query terms found in the set of lowercased
keyword strings plus 0.5 times the number of lowercased query terms found
in the set of whitespace-split lowercased summary tokens; entries scoring
0 are excluded, every positively scoring entry is included, and results
are sorted by score descending.  In particular the worked scenario entry
scores 1.5 on the query "rust ownership". -/
theorem search_scoring_correct (index : Index) (q : String) (top_n : Nat) :
    (∀ r ∈ cmd_search index q,
        r.1 =
            ((queryTerms q ∩ entryTerms r.2.2).card : ℚ) +
              0.5 * ((queryTerms q ∩ summaryTerms r.2.2).card : ℚ) ∧
          0 < r.1 ∧ (r.2.1, r.2.2) ∈ index.entries) ∧
      (∀ pe ∈ index.entries, 0 < score q pe.2 →
        (score q pe.2, pe.1, pe.2) ∈ cmd_search index q) ∧
      (cmd_search index q).Pairwise (fun a b => b.1 ≤ a.1) ∧
      (∀ c ∈ (cmd_search_json index q top_n).candidates,
        ∃ e, (c.path, e) ∈ index.entries ∧
          c.keyword_score =
              ((queryTerms q ∩ entryTerms e).card : ℚ) +
                0.5 * ((queryTerms q ∩ summaryTerms e).card : ℚ) ∧
            0 < c.keyword_score ∧ c.summary = e.summary ∧
            c.keywords = e.keywords ∧ c.related = e.related) ∧
      score "rust ownership" exampleEntry = 3 / 2 := by
  refine ⟨?_, ?_, sorted_searchResults index q, ?_, score_example⟩
  · intro r hr
    rw [cmd_search, mem_searchResults] at hr
    obtain ⟨⟨pe, hpe, heq⟩, hpos⟩ := hr
    subst heq
    exact ⟨score_formula q pe.2, hpos, by simpa using hpe⟩
  · intro pe hpe hpos
    rw [cmd_search, mem_searchResults]
    exact ⟨⟨pe, hpe, rfl⟩, hpos⟩
  · intro c hc
    simp only [cmd_search_json, List.mem_map] at hc
    obtain ⟨r, hr, rfl⟩ := hc
    have hr₂ := List.take_subset _ _ hr
    rw [mem_searchResults] at hr₂
    obtain ⟨⟨pe, hpe, heq⟩, hpos⟩ := hr₂
    subst heq
    exact ⟨pe.2, by simpa using hpe, score_formula q pe.2, hpos, rfl, rfl, rfl⟩

/-- C1 witness: on the one-entry index of the worked scenario the query
"rust ownership" returns that entry with score 1.5. -/
theorem search_scoring_correct_witness :
    ((3 : ℚ) / 2, "memory/a.md", exampleEntry) ∈
      cmd_search { version := 1, entries := [("memory/a.md", exampleEntry)] }
        "rust ownership" := by
  have h :=
    (search_scoring_correct
        { version := 1, entries := [("memory/a.md", exampleEntry)] }
        "rust ownership" 10).2.1
      ("memory/a.md", exampleEntry) (by simp)
      (by rw [score_example]; norm_num)
  rw [score_example] at h
  exact h

/-- C8: with the summary contribution held fixed, the score is
monotonically non-decreasing in the number of query terms matching the
keyword set; and the score is invariant under any reordering of the
keyword list and under any reordering of the whitespace tokens of the
summary text. -/
theorem score_monotone_and_order_invariant (q : String) (e₁ e₂ e : IndexEntry)
    (ks : List String) (s : String) :
    (summaryOverlap q e₁ = summaryOverlap q e₂ →
        kwOverlap q e₁ ≤ kwOverlap q e₂ → score q e₁ ≤ score q e₂) ∧
      (ks.Perm e.keywords → score q { e with keywords := ks } = score q e) ∧
      ((splitWs (lower s)).Perm (splitWs (lower e.summary)) →
        score q { e with summary := s } = score q e) := by
  refine ⟨?_, ?_, ?_⟩
  · intro hsum hkw
    rw [score, score, hsum]
    exact add_le_add_right (by exact_mod_cast hkw) _
  · intro hperm
    have hterms : entryTerms { e with keywords := ks } = entryTerms e :=
      List.toFinset_eq_of_perm _ _ (hperm.map lower)
    have hsum : summaryTerms { e with keywords := ks } = summaryTerms e := rfl
    rw [score_formula, score_formula, hterms, hsum]
  · intro hperm
    have hterms : summaryTerms { e with summary := s } = summaryTerms e :=
      List.toFinset_eq_of_perm _ _ hperm
    have hkw : entryTerms { e with summary := s } = entryTerms e := rfl
    rw [score_formula, score_formula, hterms, hkw]

/-- C8 witness: on the worked scenario entry, reversing the keyword list
leaves the score of the query "rust ownership" unchanged. -/
theorem score_monotone_and_order_invariant_witness :
    score "rust ownership" { exampleEntry with keywords := ["memory", "rust"] } =
      score "rust ownership" exampleEntry :=
  (score_monotone_and_order_invariant "rust ownership" exampleEntry exampleEntry
      exampleEntry ["memory", "rust"] "").2.1 (by decide)

/-!  Helper lemmas about whitespace and lowercasing. -/

lemma splitWsGo_no_ws (cs : List Char) :
    ∀ cur, (∀ c ∈ cur, c.isWhitespace = false) →
      ∀ t ∈ splitWsGo cur cs, ∀ c ∈ t, c.isWhitespace = false := by
  induction cs with
  | nil =>
    intro cur hcur t ht c hc
    by_cases h : cur = []
    · simp [splitWsGo, h] at ht
    · simp [splitWsGo, h] at ht
      subst ht
      exact hcur c (by simpa using hc)
  | cons x xs ih =>
    intro cur hcur t ht c hc
    by_cases hx : x.isWhitespace = true
    · by_cases h : cur = []
      · simp [splitWsGo, hx, h] at ht
        exact ih [] (by simp) t ht c hc
      · simp [splitWsGo, hx, h] at ht
        rcases ht with ht | ht
        · subst ht
          exact hcur c (by simpa using hc)
        · exact ih [] (by simp) t ht c hc
    · simp only [splitWsGo, hx, if_false, Bool.not_eq_true] at ht
      refine ih (x :: cur) ?_ t ht c hc
      intro d hd
      rcases List.mem_cons.mp hd with rfl | hd
      · simpa using hx
      · exact hcur d hd

lemma mem_splitWs_no_ws (s t : String) (ht : t ∈ splitWs s) (c : Char)
    (hc : c ∈ t.data) : c.isWhitespace = false := by
  rw [splitWs, List.mem_map] at ht
  obtain ⟨l, hl, rfl⟩ := ht
  exact splitWsGo_no_ws s.data [] (by simp) l hl c hc

lemma toLower_of_ws (c : Char) (h : c.isWhitespace = true) : c.toLower = c := by
  have h4 : c = ' ' ∨ c = '\t' ∨ c = '\r' ∨ c = '\n' := by
    simpa [Char.isWhitespace, or_assoc] using h
  rcases h4 with rfl | rfl | rfl | rfl <;> decide

lemma ws_mem_lower (k : String) (c : Char) (hc : c ∈ k.data)
    (hws : c.isWhitespace = true) : c ∈ (lower k).data := by
  rw [lower]
  exact List.mem_map.mpr ⟨c, hc, by rw [toLower_of_ws c hws]⟩

lemma ws_keyword_not_query_term (q k : String)
    (h : ∃ c ∈ k.data, c.isWhitespace = true) : lower k ∉ queryTerms q := by
  intro hmem
  obtain ⟨c, hc, hws⟩ := h
  rw [queryTerms, List.mem_toFinset] at hmem
  have := mem_splitWs_no_ws (lower q) (lower k) hmem c (ws_mem_lower k c hc hws)
  rw [hws] at this
  exact Bool.noConfusion this

/-- C10: keywords are compared as whole lowercased strings against
individual whitespace-delimited query tokens, so a keyword containing a
whitespace character never equals any query term, contributes nothing to
the keyword overlap in either search mode, and never appears among the
matched keywords of the structured output. -/
theorem multiword_keyword_never_matches (q k : String) (e : IndexEntry)
    (index : Index) (top_n : Nat) :
    ((∃ c ∈ k.data, c.isWhitespace = true) → lower k ∉ queryTerms q) ∧
      kwOverlap q e =
        kwOverlap q
          { e with keywords := e.keywords.filter fun w => !w.data.any Char.isWhitespace } ∧
      ((∃ c ∈ k.data, c.isWhitespace = true) →
        ∀ cand ∈ (cmd_search_json index q top_n).candidates,
          lower k ∉ cand.matched_keywords) := by
  refine ⟨ws_keyword_not_query_term q k, ?_, ?_⟩
  · unfold kwOverlap
    congr 1
    ext x
    simp only [Finset.mem_inter, entryTerms, List.mem_toFinset, List.mem_map,
      List.mem_filter]
    constructor
    · rintro ⟨hxq, w, hw, rfl⟩
      refine ⟨hxq, w, ⟨hw, ?_⟩, rfl⟩
      by_contra hws
      simp at hws
      exact ws_keyword_not_query_term q w hws hxq
    · rintro ⟨hxq, w, ⟨hw, _⟩, rfl⟩
      exact ⟨hxq, w, hw, rfl⟩
  · intro h cand hcand
    intro hmem
    simp only [cmd_search_json, List.mem_map] at hcand
    obtain ⟨r, _, rfl⟩ := hcand
    simp only [Finset.mem_sort] at hmem
    exact ws_keyword_not_query_term q k h (Finset.mem_inter.mp hmem).1

/-- C10 witness: the two-word keyword "borrow checker" is not a query
term of the query "rust borrow checker". -/
theorem multiword_keyword_never_matches_witness :
    lower "borrow checker" ∉ queryTerms "rust borrow checker" :=
  (multiword_keyword_never_matches "rust borrow checker" "borrow checker"
      exampleEntry emptyIndex 10).1 (by decide)

/-!  Helper lemmas about the vault walk. -/

lemma lookup_some_iff_mem_keys (p : String) (fs : List (String × String)) :
    (∃ t, List.lookup p fs = some t) ↔ p ∈ fs.map Prod.fst := by
  constructor
  · rintro ⟨t, ht⟩
    have hs : (List.lookup p fs).isSome := by simp [ht]
    obtain ⟨pr, hpr, hbeq⟩ := List.lookup_isSome_iff.mp hs
    rw [List.mem_map]
    exact ⟨pr, hpr, (beq_iff_eq.mp hbeq).symm⟩
  · intro hp
    apply Option.isSome_iff_exists.mp
    apply List.lookup_isSome_iff.mpr
    rw [List.mem_map] at hp
    obtain ⟨pr, hpr, rfl⟩ := hp
    exact ⟨pr, hpr, by simp⟩

lemma mem_vault_files (fs : FileSystem) (p : String) :
    p ∈ vault_files fs ↔ p ∈ fs.map Prod.fst := by
  simp [vault_files]

lemma sorted_vault_files (fs : FileSystem) :
    (vault_files fs).Pairwise fun a b : String => a ≤ b := by
  have h :=
    @List.sorted_mergeSort String (fun a b => decide (a ≤ b))
      (fun a b c hab hbc => by
        simp only [decide_eq_true_eq] at *
        exact le_trans hab hbc)
      (fun a b => by rcases le_total a b with hle | hle <;> simp [hle])
      (fs.map Prod.fst)
  exact h.imp fun hab => of_decide_eq_true hab

/-- C5: the scan outputs exactly the vault documents that have no index
entry or whose stored content hash differs from the hash of their live
content, in ascending lexicographic path order, without touching the
index store; a document freshly indexed by `cmd_update` and re-scanned
over unchanged content is excluded, and it reappears once its content
changes in a way the hash detects. -/
theorem scan_needs_indexing_spec (hash : String → String) (fs fs₂ : FileSystem)
    (index : Index) (store : Option Index) (p summary text text₂ : String)
    (keywords related : List String) :
    ((cmd_scan hash fs index).2 = index) ∧
      ((cmd_scan hash fs index).1.Pairwise fun a b : String => a ≤ b) ∧
      (∀ fp, fp ∈ (cmd_scan hash fs index).1 ↔
        ∃ t, List.lookup fp fs = some t ∧
          (List.lookup fp index.entries = none ∨
            ∃ e, List.lookup fp index.entries = some e ∧
              e.content_hash ≠ hash t)) ∧
      (List.lookup p fs = some text →
        ∀ i₁, cmd_update hash fs store p summary keywords related = Except.ok i₁ →
          p ∉ (cmd_scan hash fs i₁).1) ∧
      (List.lookup p fs = some text →
        List.lookup p fs₂ = some text₂ →
        hash text₂ ≠ hash text →
        ∀ i₁, cmd_update hash fs store p summary keywords related = Except.ok i₁ →
          p ∈ (cmd_scan hash fs₂ i₁).1) := by
  refine ⟨rfl, List.Pairwise.filter _ (sorted_vault_files fs), ?_, ?_, ?_⟩
  · intro fp
    rw [cmd_scan]
    simp only [List.mem_filter]
    constructor
    · rintro ⟨hmem, hpred⟩
      obtain ⟨t, ht⟩ :=
        (lookup_some_iff_mem_keys fp fs).mpr ((mem_vault_files fs fp).mp hmem)
      refine ⟨t, ht, ?_⟩
      rw [ht] at hpred
      cases hent : List.lookup fp index.entries with
      | none => exact Or.inl rfl
      | some e =>
        rw [hent] at hpred
        refine Or.inr ⟨e, rfl, ?_⟩
        simpa using hpred
    · rintro ⟨t, ht, hcond⟩
      refine ⟨(mem_vault_files fs fp).mpr
        ((lookup_some_iff_mem_keys fp fs).mp ⟨t, ht⟩), ?_⟩
      rw [ht]
      rcases hcond with hnone | ⟨e, hent, hne⟩
      · rw [hnone]
      · rw [hent]
        simpa using hne
  · intro ht i₁ hupd
    rw [cmd_update, ht] at hupd
    injection hupd with hupd
    subst hupd
    intro hmem
    rw [cmd_scan] at hmem
    have hpred := (List.mem_filter.mp hmem).2
    rw [ht] at hpred
    rw [lookup_dictInsert_self] at hpred
    simp at hpred
  · intro ht ht₂ hne i₁ hupd
    rw [cmd_update, ht] at hupd
    injection hupd with hupd
    subst hupd
    rw [cmd_scan]
    apply List.mem_filter.mpr
    refine ⟨(mem_vault_files fs₂ p).mpr
      ((lookup_some_iff_mem_keys p fs₂).mp ⟨text₂, ht₂⟩), ?_⟩
    rw [ht₂]
    rw [lookup_dictInsert_self]
    simpa using fun h => hne h.symm

/-- C5 witness: a document indexed with content "v1" reappears in the
needs-indexing set once its live content is "v2". -/
theorem scan_needs_indexing_spec_witness :
    "memory/a.md" ∈
      (cmd_scan (fun t => t) [("memory/a.md", "v2")]
        { version := 1,
          entries :=
            [("memory/a.md",
              { source_path := "memory/a.md", content_hash := "v1",
                summary := "s", keywords := ["k"], related := [] })] }).1 := by
  have h :=
    (scan_needs_indexing_spec (fun t => t) [("memory/a.md", "v1")]
        [("memory/a.md", "v2")] emptyIndex none "memory/a.md" "s" "v1" "v2"
        ["k"] []).2.2.2.2
      rfl rfl (by decide)
      { version := 1,
        entries :=
          [("memory/a.md",
            { source_path := "memory/a.md", content_hash := "v1",
              summary := "s", keywords := ["k"], related := [] })] }
      rfl
  exact h

/-!  Helper lemma for the keyword-vocabulary fold of `cmd_stats`. -/

lemma mem_foldl_union (l : List (String × IndexEntry)) (init : Finset String)
    (x : String) :
    (x ∈ l.foldl (fun acc pe => acc ∪ (pe.2.keywords.map lower).toFinset) init) ↔
      x ∈ init ∨ ∃ pe ∈ l, x ∈ (pe.2.keywords.map lower).toFinset := by
  induction l generalizing init with
  | nil => simp
  | cons pe rest ih =>
    rw [List.foldl_cons, ih]
    simp only [Finset.mem_union, List.mem_cons]
    constructor
    · rintro ((hx | hx) | ⟨qe, hqe, hx⟩)
      · exact Or.inl hx
      · exact Or.inr ⟨pe, Or.inl rfl, hx⟩
      · exact Or.inr ⟨qe, Or.inr hqe, hx⟩
    · rintro (hx | ⟨qe, (rfl | hqe), hx⟩)
      · exact Or.inl (Or.inl hx)
      · exact Or.inl (Or.inr hx)
      · exact Or.inr ⟨qe, hqe, hx⟩

/-- C9: the stats report counts as stale exactly the indexed paths that no
longer name an existing document (they are listed, never removed from the
store), the unique-keyword vocabulary is the case-folded union of all
keywords over all entries, and the operation leaves the store untouched.
On the concrete 3-entry index with one path missing from disk the stale
count is 1. -/
theorem stats_stale_and_vocabulary (fs : FileSystem) (store : Option Index)
    (missLog : Option (List MissRecord)) :
    ((cmd_stats fs store missLog).2 = store) ∧
      ((cmd_stats fs store missLog).1.stale.length =
        ((loadOrEmpty store).entries.map Prod.fst).countP
          fun p => decide (List.lookup p fs = none)) ∧
      ((cmd_stats fs store missLog).1.all_keywords =
        ((loadOrEmpty store).entries.flatMap
          fun pe => pe.2.keywords.map lower).toFinset) ∧
      ((cmd_stats fs store missLog).1.all_keywords.card =
        ((loadOrEmpty store).entries.flatMap
          fun pe => pe.2.keywords.map lower).toFinset.card) ∧
      ((cmd_stats [("memory/a.md", "x"), ("memory/b.md", "y")]
          (some
            { version := 1,
              entries :=
                [("memory/a.md",
                  { source_path := "memory/a.md", content_hash := "h1",
                    summary := "s1", keywords := ["k1"], related := [] }),
                 ("memory/b.md",
                  { source_path := "memory/b.md", content_hash := "h2",
                    summary := "s2", keywords := ["k2"], related := [] }),
                 ("memory/c.md",
                  { source_path := "memory/c.md", content_hash := "h3",
                    summary := "s3", keywords := ["k3"], related := [] })] })
          none).1.stale.length = 1) := by
  have hset : (cmd_stats fs store missLog).1.all_keywords =
      ((loadOrEmpty store).entries.flatMap
        fun pe => pe.2.keywords.map lower).toFinset := by
    apply Finset.ext
    intro x
    rw [cmd_stats]
    rw [mem_foldl_union]
    simp [List.mem_flatMap]
  refine ⟨rfl, ?_, hset, congrArg Finset.card hset, by decide⟩
  · rw [List.countP_eq_length_filter]
    have hpred : (fun p => (List.lookup p fs).isNone) =
        fun p => decide (List.lookup p fs = none) := by
      funext p
      cases h : List.lookup p fs <;> simp [h]
    rw [cmd_stats]
    rw [hpred]
